import Mathlib

/-!
Verification of the beat-grid construction, chunk planning, feature resampling and
transcription decoding pipeline of `sheetsage/infer.py`.

Modelling conventions: audio timestamps and feature values are exact rationals
(the source uses floating point; every claim treated here is order-theoretic or
structural, stated over exact arithmetic), numpy arrays are lists, and Python
code that can raise is embedded in `Except String`.
-/

/-- Tertiary (sixteenth-note) subdivisions per beat, `_TERTIARIES_PER_BEAT` in the source. -/
def _TERTIARIES_PER_BEAT : ℕ := 4

/-- Maximum chunk duration in seconds, `_JUKEBOX_CHUNK_DURATION_EDGE = 23.75` in the source. -/
def _JUKEBOX_CHUNK_DURATION_EDGE : ℚ := 95 / 4

/-- Lowest melody pitch, `_MELODY_PITCH_MIN` in the source. -/
def _MELODY_PITCH_MIN : ℕ := 21

/-- Maximum model input length, `_MAX_TERTIARIES_PER_CHUNK` in the source. -/
def _MAX_TERTIARIES_PER_CHUNK : ℕ := 384

/-- Harmony chord-quality families, `_HARMONY_FAMILIES` in the source. -/
def _HARMONY_FAMILIES : List String := ["", "m", "m7", "7", "maj7", "sus", "dim", "aug"]

/-- Family to interval-pattern table, `_FAMILY_TO_INTERVALS` in the source. -/
def _FAMILY_TO_INTERVALS (f : String) : List ℕ :=
  if f = "" then [4, 3]
  else if f = "m" then [3, 4]
  else if f = "m7" then [3, 4, 3]
  else if f = "7" then [4, 3, 3]
  else if f = "maj7" then [4, 3, 4]
  else if f = "sus" then [5, 2]
  else if f = "dim" then [3, 3]
  else [4, 4]

/-- Truncation toward zero: the behaviour of numpy float-to-int64 casts
(`.astype(np.int64)` and `int(...)` in the source). -/
def truncRat (q : ℚ) : ℤ := if 0 ≤ q then ⌊q⌋ else -⌊-q⌋

/-- First index of the minimum of a list: the behaviour of `np.argmin` (ties
resolve to the lowest index). -/
def npArgmin : List ℚ → ℕ
  | [] => 0
  | x :: xs => (x :: xs).indexOf (xs.foldl min x)

/-- First index of the maximum of a list: the behaviour of `np.argmax` (ties
resolve to the lowest index). -/
def npArgmax : List ℚ → ℕ
  | [] => 0
  | x :: xs => (x :: xs).indexOf (xs.foldl max x)

/-- Python `range(a, b, step)` for a positive step. -/
def pyRange (a b step : ℕ) : List ℕ := List.range' a ((b - a + step - 1) / step) step

/-- Run a fallible body over a list, stopping at the first raised error: the
semantics of a Python for-loop that appends to an accumulator and may raise. -/
def mapME {α β : Type} (f : α → Except String β) : List α → Except String (List β)
  | [] => .ok []
  | x :: xs =>
    match f x with
    | .error m => .error m
    | .ok y =>
      match mapME f xs with
      | .error m => .error m
      | .ok ys => .ok (y :: ys)

/-- Modelled from the spec: `create_beat_to_time_fn` lives in `sheetsage/align.py`,
which is not among the sources under verification; the spec (sections 4.1 and 9)
characterises it as a monotone interpolation of the beat-index-to-time mapping,
so the beat-to-time function is modelled as an arbitrary monotone rational map. -/
def BeatToTimeFn (f : ℚ → ℚ) : Prop := Monotone f

/-- Tertiary grid timestamps, non-legacy path of `_beat_tracking_with_hints`
(infer.py lines 216-222): sample the beat-to-time map at quarter-beat indices
offset back by half a quarter beat, then clamp into `[0, beats[-1]]`
(`np.maximum` with `0.0` followed by `np.minimum` with `beats[-1]`). -/
def tertiariesTimes (f : ℚ → ℚ) (beats : List ℚ) : List ℚ :=
  (List.range ((beats.length - 1) * _TERTIARIES_PER_BEAT + 1)).map
    (fun (k : ℕ) =>
      min
        (max (f ((k : ℚ) / (_TERTIARIES_PER_BEAT : ℚ)
          - (1 / (_TERTIARIES_PER_BEAT : ℚ)) / 2)) 0)
        (beats.getLastD 0))

/-- Python list slicing `l[s:e]` for nonnegative bounds (out-of-range bounds clamp). -/
def pySlice {α : Type} (l : List α) (s e : ℕ) : List α := (l.drop s).take (e - s)

/-- Loop body of the non-legacy chunk planner (`_split_into_chunks`, infer.py lines
325-340): compute the chunk's half-open tertiary index range with its end clamped to
the segment end, check it fits the grid, and check its duration. A failed `assert`
and the `NotImplementedError` are modelled as errors. -/
def chunkBody (ts : List ℚ) (segment_end_beat beats_per_chunk b : ℕ) :
    Except String (ℕ × ℕ) :=
  let chunk_start_tertiary := b * _TERTIARIES_PER_BEAT
  let chunk_end_tertiary :=
    min ((b + beats_per_chunk) * _TERTIARIES_PER_BEAT + 1)
      (segment_end_beat * _TERTIARIES_PER_BEAT + 1)
  if chunk_end_tertiary ≤ ts.length then
    let chunk_times := pySlice ts chunk_start_tertiary chunk_end_tertiary
    let duration := chunk_times.getLastD 0 - chunk_times.headD 0
    if 0 < duration then
      if duration ≤ _JUKEBOX_CHUNK_DURATION_EDGE then
        .ok (chunk_start_tertiary, chunk_end_tertiary)
      else .error "Dynamic chunking not implemented. Try halving measures_per_chunk."
    else .error "assert failed: duration > 0"
  else .error "assert failed: chunk_end_tertiary <= tertiaries_times.shape 0"

/-- Chunk planner `_split_into_chunks` (infer.py lines 297-342). Chunks are returned
as half-open index ranges `(start, stop)` into the tertiary grid, standing for the
Python `slice(start, stop)` objects appended to `chunks`. Indexing `[0]` / `[-1]` of
an empty slice (an `IndexError` in Python) is modelled by `headD` / `getLastD`
defaults; every claim below only exercises in-range slices. -/
def _split_into_chunks (tertiaries_times : List ℚ) (measures_per_chunk : ℕ)
    (beats_per_measure segment_start_downbeat segment_end_beat : ℕ)
    (avoid_chunking_if_possible legacy_behavior : Bool) : Except String (List (ℕ × ℕ)) :=
  if legacy_behavior then
    let duration := tertiaries_times.getLastD 0 - tertiaries_times.headD 0
    if 0 < duration ∧ duration ≤ _JUKEBOX_CHUNK_DURATION_EDGE then
      .ok [(0, tertiaries_times.length)]
    else .error "assert failed: duration"
  else
    let beats_per_chunk := beats_per_measure * measures_per_chunk
    let beats_per_chunk :=
      if avoid_chunking_if_possible then
        let chunk_start_tertiary := segment_start_downbeat * _TERTIARIES_PER_BEAT
        let chunk_end_tertiary := segment_end_beat * _TERTIARIES_PER_BEAT + 1
        let chunk_times := pySlice tertiaries_times chunk_start_tertiary chunk_end_tertiary
        let duration := chunk_times.getLastD 0 - chunk_times.headD 0
        if duration ≤ _JUKEBOX_CHUNK_DURATION_EDGE then segment_end_beat
        else beats_per_chunk
      else beats_per_chunk
    mapME (chunkBody tertiaries_times segment_end_beat beats_per_chunk)
      (pyRange segment_start_downbeat segment_end_beat beats_per_chunk)

/-- The chunk list makes a disjoint, gap-free, duplication-free, increasing cover of
the segment's tertiary indices: claim C2 as stated, phrased as the in-order
concatenation of the chunks' half-open index ranges being exactly the segment range. -/
def chunksExactCover (chunks : List (ℕ × ℕ)) (ssd seb : ℕ) : Prop :=
  chunks.flatMap (fun c => List.range' c.1 (c.2 - c.1))
    = List.range' (ssd * _TERTIARIES_PER_BEAT)
        (seb * _TERTIARIES_PER_BEAT + 1 - ssd * _TERTIARIES_PER_BEAT)

/-- A 17-entry tertiary grid with one second between adjacent tertiaries, used as a
concrete input to the chunk planner. -/
def tsC2 : List ℚ := [0, 1, 2, 3, 4, 5, 6, 7, 8, 9, 10, 11, 12, 13, 14, 15, 16]

/-- Pairwise differences of adjacent entries: `np.diff`. -/
def npDiff (l : List ℚ) : List ℚ := (l.zip l.tail).map (fun p => p.2 - p.1)

/-- The tempo-too-fast precondition of `_extract_features` (infer.py lines 348-350):
some adjacent pair of full-grid tertiary timestamps spans zero native feature
frames, where the frame count is the timestamp delta times the extractor frame
rate truncated to an integer. -/
def tempoTooFast (frame_rate : ℚ) (tertiaries_times : List ℚ) : Bool :=
  (npDiff tertiaries_times).any (fun d => truncRat (d * frame_rate) == 0)

/-- Componentwise mean of feature rows: `np.mean(..., axis=0, keepdims=True)`. An
empty row set yields an empty row (numpy would produce a NaN row with a warning,
not an exception; the pooling assertion precludes reaching it in a successful run
over in-range features). -/
def meanRows (rows : List (List ℚ)) : List ℚ :=
  match rows with
  | [] => []
  | r :: _ => (List.range r.length).map
      (fun j => (rows.map (fun row => row.getD j 0)).sum / (rows.length : ℚ))

/-- One mean-pooling step of `_extract_features` (infer.py lines 369-373): native
frame indices `s`, `e` are the truncated tertiary timestamps relative to the chunk
offset scaled by the frame rate, and the source assertion `e > s` is modelled as an
error. Python negative-index slicing is not modelled: in every run considered the
timestamps are non-decreasing, making the frame indices nonnegative. -/
def poolBody (fr : ℚ) (feats : List (List ℚ)) (ctimes : List ℚ) (offset : ℚ)
    (i : ℕ) : Except String (List ℚ) :=
  let s := truncRat ((ctimes.getD i 0 - offset) * fr)
  let e := truncRat ((ctimes.getD (i + 1) 0 - offset) * fr)
  if s < e then .ok (meanRows (pySlice feats s.toNat e.toNat))
  else .error "assert failed: e > s"

/-- Mean-pooling loop over the consecutive tertiary pairs of one chunk. -/
def poolChunk (fr : ℚ) (feats : List (List ℚ)) (ctimes : List ℚ) (offset : ℚ) :
    Except String (List (List ℚ)) :=
  mapME (poolBody fr feats ctimes offset) (List.range (ctimes.length - 1))

/-- Per-chunk body of `_extract_features` (infer.py lines 362-375): slice the
chunk's tertiary timestamps, check the duration assertion, invoke the extractor
collaborator once over the chunk's time span (it returns its native frame rate and
feature rows as a function of offset and duration), and mean-pool its rows between
consecutive tertiary timestamps. -/
def featBody (extractor : ℚ → ℚ → ℚ × List (List ℚ)) (ts : List ℚ) (c : ℕ × ℕ) :
    Except String (List (List ℚ)) :=
  let chunk_times := pySlice ts c.1 c.2
  let offset := chunk_times.headD 0
  let duration := chunk_times.getLastD 0 - offset
  if duration ≤ _JUKEBOX_CHUNK_DURATION_EDGE then
    let fe := extractor offset duration
    poolChunk fe.1 fe.2 chunk_times offset
  else .error "assert failed: duration <= edge"

/-- Feature resampler `_extract_features` (infer.py lines 345-388): the
tempo-too-fast check over the full tertiary grid precedes every extractor
invocation; each chunk is then pooled onto its tertiary grid. The post-pooling
per-feature normalization of handcrafted features rescales row values without
changing row counts and is outside every claim treated here, so it is omitted. -/
def _extract_features (extractor : ℚ → ℚ → ℚ × List (List ℚ)) (frame_rate : ℚ)
    (tertiaries_times : List ℚ) (chunks_tertiaries : List (ℕ × ℕ)) :
    Except String (List (List (List ℚ))) :=
  if tempoTooFast frame_rate tertiaries_times then
    .error "Tempo too fast for beat-informed feature resampling"
  else mapME (featBody extractor tertiaries_times) chunks_tertiaries

/-- Zero-padding of a feature chunk to the model input length: `np.pad` with
`_MAX_TERTIARIES_PER_CHUNK - src_len` zero rows (infer.py line 407). -/
def padChunk (src : List (List ℚ)) : List (List ℚ) :=
  src ++ List.replicate (_MAX_TERTIARIES_PER_CHUNK - src.length)
    (List.replicate (src.headD []).length 0)

/-- Transcription of the feature chunks for one task (`_transcribe_chunks`,
infer.py lines 391-429): per chunk, pad the features to the model input length,
invoke the classifier collaborator once, and keep only the first `src_len` output
positions. Modelled from the spec: the classifier itself (`_init_model`, torch
modules) is outside the verified sources; per the spec (section 6) it maps
`(padded_feature_sequence, true_length)` to `logits[true_length][vocab_size]`,
so it is a parameter whose output-length contract is a hypothesis. -/
def _transcribe_chunks (model : List (List ℚ) → ℕ → List (List ℚ))
    (chunks_features : List (List (List ℚ))) : List (List (List ℚ)) :=
  chunks_features.map (fun src => (model (padChunk src) src.length).take src.length)

/-- A five-entry tertiary grid (one second per tertiary) covering one 4/4 measure
plus the trailing fence-post, used as concrete input to the full pipeline. -/
def tsC3 : List ℚ := [0, 1, 2, 3, 4]

/-- Nearest-index helper `_closest_idx` (infer.py lines 151-153): the first index
of the minimum absolute distance (`np.argmin`; the `+ 1e-6` and `int(...)` in the
source leave the integer argmin value unchanged). -/
def _closest_idx (x : ℚ) (l : List ℚ) : ℕ := npArgmin (l.map (fun li => |li - x|))

/-- Segment resolution of `_beat_tracking_with_hints` (infer.py lines 224-247):
the portion of the Beat Grid Constructor that fixes `segment_start_downbeat` and
`segment_end_beat` from the detected beats, the downbeat phase and the optional
user hints. Inputs are the post-detection values: beat timestamps (already offset
by the detection start), the first downbeat index and the beats per measure. The
source's reliance on nonempty downbeat lists (`assert len(downbeats) > 0`, or an
`IndexError` on `downbeats[-1]`) is modelled as `none`. -/
def resolveSegmentPair (beats : List ℚ) (first_downbeat_idx beats_per_measure : ℕ)
    (segment_start_hint segment_end_hint : Option ℚ)
    (segment_hints_are_downbeats : Bool) : Option (ℕ × ℕ) :=
  let downbeats := ((List.enumFrom 0 beats).filter
    (fun it => it.1 % beats_per_measure == first_downbeat_idx)).map Prod.snd
  if downbeats.isEmpty then none
  else
    let segment_start :=
      match segment_start_hint with
      | none => downbeats.headD 0
      | some h =>
        if segment_hints_are_downbeats then h
        else downbeats.getD (_closest_idx h downbeats) 0
    let segment_start_downbeat := _closest_idx segment_start beats
    let downbeats2 := ((List.enumFrom 0 beats).filter
      (fun it => it.1 % beats_per_measure
        == segment_start_downbeat % beats_per_measure)).map Prod.snd
    if downbeats2.isEmpty then none
    else
      let segment_end :=
        match segment_end_hint with
        | none => downbeats2.getLastD 0
        | some h =>
          if segment_hints_are_downbeats then h
          else downbeats2.getD (_closest_idx h downbeats2) 0
      some (segment_start_downbeat, _closest_idx segment_end beats)

/-- The segment-too-short check of the Beat Grid Constructor (infer.py lines
247-249): after resolving the segment indices, the constructor raises exactly when
the resolved end beat index equals the resolved start downbeat index. -/
def resolveSegment (beats : List ℚ) (first_downbeat_idx beats_per_measure : ℕ)
    (segment_start_hint segment_end_hint : Option ℚ)
    (segment_hints_are_downbeats : Bool) : Except String (ℕ × ℕ) :=
  match resolveSegmentPair beats first_downbeat_idx beats_per_measure
      segment_start_hint segment_end_hint segment_hints_are_downbeats with
  | none => .error "assert failed: downbeats nonempty"
  | some (ssd, seb) =>
    if seb = ssd then .error "Specified segment is too short (<1 measure)."
    else .ok (ssd, seb)

/-- Threshold/arg-max decoding policy `decode` inside `_format_lead_sheet`
(infer.py lines 444-451); vocabulary index 0 is the reserved no-event class.
Modelled from the spec: scipy's `softmax` is outside the verified sources, and
only `softmax(logits)[0]`, the null-class probability, is consumed, so the
softmax is a parameter; real softmax outputs lie strictly between 0 and 1, a
hypothesis where needed. With a threshold, a position emits the arg-max non-null
class when `1 - softmax0 >= threshold` (`np.where`), else the no-event class. -/
def decode (softmax0 : List ℚ → ℚ) (logits : List (List ℚ)) (threshold : Option ℚ) :
    List ℕ :=
  match threshold with
  | none => logits.map npArgmax
  | some t => logits.map
      (fun z => if t ≤ 1 - softmax0 z then 1 + npArgmax (z.drop 1) else 0)

/-- The null class (index 0) is the strict arg-max of a logit vector. -/
def isStrictNullArgmax (z : List ℚ) : Prop :=
  ∀ j, 0 < j → j < z.length → z.getD j 0 < z.getD 0 0

/-- Chord construction from a decoded non-null harmony class (infer.py lines
487-494): the class minus the null slot splits into a root pitch class and a
quality family index, mapped through the fixed family-to-intervals table. The
theory module's `Chord` value object (outside the verified sources) is determined
by its root and interval pattern, so a chord is modelled as that pair. -/
def chordOfClass (c : ℕ) : ℕ × List ℕ :=
  ((c - 1) / _HARMONY_FAMILIES.length,
    _FAMILY_TO_INTERVALS (_HARMONY_FAMILIES.getD ((c - 1) % _HARMONY_FAMILIES.length) ""))

/-- Harmony run-length loop of `_format_lead_sheet` (infer.py lines 482-498): walk
the decoded classes with their tertiary indices, tracking the chord of the last
non-null position; a non-null position emits an event exactly when its chord
differs from that tracked chord. -/
def harmonyGo : List ℕ → ℕ → Option (ℕ × List ℕ) → List (ℕ × (ℕ × List ℕ))
  | [], _, _ => []
  | c :: rest, o, last_chord =>
    if c ≠ 0 then
      let chord := chordOfClass c
      if some chord ≠ last_chord then
        (o, chord) :: harmonyGo rest (o + 1) (some chord)
      else harmonyGo rest (o + 1) (some chord)
    else harmonyGo rest (o + 1) last_chord

/-- Harmony Events decoded from a prediction sequence. -/
def harmonyEvents (preds : List ℕ) : List (ℕ × (ℕ × List ℕ)) := harmonyGo preds 0 none

/-- Decoded melody note of a non-null class (infer.py lines 463-466): subtract the
null slot, add the fixed minimum pitch, split into pitch class and octave. -/
def noteOfClass (p : ℕ) : ℕ × ℕ :=
  ((p - 1 + _MELODY_PITCH_MIN) % 12, (p - 1 + _MELODY_PITCH_MIN) / 12)

/-- Melody onsets (infer.py lines 460-466): each non-null position yields one
`(tertiary index, note)` pair. -/
def melodyOnsets (preds : List ℕ) : List (ℕ × (ℕ × ℕ)) :=
  (List.enumFrom 0 preds).filterMap
    (fun op => if op.2 ≠ 0 then some (op.1, noteOfClass op.2) else none)

/-- Melody duration loop (infer.py lines 467-473): each onset lasts until the next
onset; the last one lasts until the end of the grid. -/
def melodyLoop : List (ℕ × (ℕ × ℕ)) → ℕ → List (ℕ × ℕ × (ℕ × ℕ))
  | [], _ => []
  | [(o, n)], total => [(o, total - o, n)]
  | (o, n) :: next :: rest, total => (o, next.1 - o, n) :: melodyLoop (next :: rest) total

/-- Melody Events decoded from a prediction sequence over a grid of `total`
tertiary positions (infer.py lines 456-474). -/
def melodyEvents (preds : List ℕ) (total : ℕ) : List (ℕ × ℕ × (ℕ × ℕ)) :=
  melodyLoop (melodyOnsets preds) total

/-- Spec-side description of the onset positions: the indices holding a non-null
prediction, in order. -/
def onsetIndices (preds : List ℕ) : List ℕ :=
  (List.enumFrom 0 preds).filterMap (fun op => if op.2 ≠ 0 then some op.1 else none)

/-- Input validation of the top-level `sheetsage` entry point (infer.py lines
604-625): the checks on the segment hints, the chunk-size target, the meter hint
and the beat-detection padding, in source order. The melody and harmony decoding
thresholds are accepted as arguments and never inspected: the entry point
performs no range validation on them. -/
def sheetsageValidate (segment_start_hint segment_end_hint : Option ℚ)
    (measures_per_chunk : ℤ) (beats_per_measure_hint : Option ℤ)
    (melody_threshold harmony_threshold : Option ℚ)
    (beat_detection_padding : ℚ) : Except String Unit :=
  if (match segment_start_hint with
      | some s => decide (s < 0)
      | none => false) then .error "Segment start hint cannot be negative"
  else if (match segment_end_hint with
      | some e => decide (e < 0)
      | none => false) then .error "Segment end hint cannot be negative"
  else if (match segment_start_hint, segment_end_hint with
      | some s, some e => decide (e ≤ s)
      | _, _ => false) then
    .error "Segment end hint should be greater than start hint"
  else if measures_per_chunk ≤ 0 then .error "Invalid measures per chunk specified"
  else if 24 < measures_per_chunk then
    .error "Sheet Sage can only transcribe 24 measures per chunk"
  else if (match beats_per_measure_hint with
      | some m => decide (m ≠ 3 ∧ m ≠ 4)
      | none => false) then
    .error "Currently, Sheet Sage only supports 4/4 and 3/4 time signatures"
  else if beat_detection_padding < 0 then
    .error "Beat detection padding cannot be negative"
  else .ok ()

/-- C1: for a beat grid with at least two beats and a monotone beat-to-time map,
the tertiary grid has `(len(beats) - 1) * 4 + 1` entries, its timestamps are
non-decreasing, all lie in `[0, beats[-1]]`, and each entry is the interpolated
value at its quarter-beat index offset back by half a quarter beat, clamped. -/
theorem c1_tertiary_grid (f : ℚ → ℚ) (beats : List ℚ) (hf : BeatToTimeFn f)
    (hlen : 2 ≤ beats.length) (hlast : 0 ≤ beats.getLastD 0) :
    (tertiariesTimes f beats).length = (beats.length - 1) * 4 + 1 ∧
    (tertiariesTimes f beats).Chain' (· ≤ ·) ∧
    (∀ t ∈ tertiariesTimes f beats, 0 ≤ t ∧ t ≤ beats.getLastD 0) ∧
    (∀ k, k < (tertiariesTimes f beats).length →
      (tertiariesTimes f beats).getD k 0
        = min (max (f ((k : ℚ) / 4 - 1 / 8)) 0) (beats.getLastD 0)) := by
  have harg : ∀ k : ℕ,
      (k : ℚ) / (_TERTIARIES_PER_BEAT : ℚ) - (1 / (_TERTIARIES_PER_BEAT : ℚ)) / 2
        = (k : ℚ) / 4 - 1 / 8 := by
    intro k
    norm_num [_TERTIARIES_PER_BEAT]
  refine ⟨?_, ?_, ?_, ?_⟩
  · simp [tertiariesTimes, _TERTIARIES_PER_BEAT]
  · rw [tertiariesTimes, List.chain'_map]
    have hsucc : (beats.length - 1) * _TERTIARIES_PER_BEAT + 1
        = Nat.succ ((beats.length - 1) * _TERTIARIES_PER_BEAT) := rfl
    rw [hsucc, List.chain'_range_succ]
    intro m _
    refine min_le_min (max_le_max (hf ?_) le_rfl) le_rfl
    have hm : (m : ℚ) ≤ (m.succ : ℚ) := by exact_mod_cast Nat.le_succ m
    have h4 : (0 : ℚ) < (_TERTIARIES_PER_BEAT : ℚ) := by norm_num [_TERTIARIES_PER_BEAT]
    gcongr
  · intro t ht
    rw [tertiariesTimes] at ht
    obtain ⟨k, _, rfl⟩ := List.mem_map.mp ht
    constructor
    · exact le_min (le_max_right _ _) hlast
    · exact min_le_right _ _
  · intro k hk
    rw [tertiariesTimes] at hk ⊢
    rw [List.length_map, List.length_range] at hk
    rw [List.getD_eq_getElem?_getD, List.getElem?_map, List.getElem?_range hk]
    norm_num [_TERTIARIES_PER_BEAT]

lemma mapME_nil {α β : Type} (f : α → Except String β) : mapME f [] = .ok [] := rfl

lemma mapME_ok_map {α β γ : Type} (f : α → Except String β) (g : α → γ) (h : β → γ) :
    ∀ (l : List α) (l' : List β), mapME f l = .ok l' →
      (∀ x ∈ l, ∀ y, f x = .ok y → h y = g x) → l'.map h = l.map g := by
  intro l
  induction l with
  | nil =>
    intro l' hml _
    simp only [mapME] at hml
    cases hml
    rfl
  | cons x xs ih =>
    intro l' hml hfg
    rw [mapME] at hml
    cases hfx : f x with
    | error m => rw [hfx] at hml; cases hml
    | ok y =>
      rw [hfx] at hml
      cases hmxs : mapME f xs with
      | error m => rw [hmxs] at hml; cases hml
      | ok ys =>
        rw [hmxs] at hml
        cases hml
        have hy : h y = g x := hfg x (List.mem_cons_self x xs) y hfx
        have hrest := ih ys hmxs (fun a ha b hb => hfg a (List.mem_cons_of_mem x ha) b hb)
        simp [hy, hrest]

lemma mapME_ok_forall_mem {α β : Type} (f : α → Except String β) (P : β → Prop)
    (hP : ∀ x y, f x = .ok y → P y) :
    ∀ (l : List α) (l' : List β), mapME f l = .ok l' → ∀ y ∈ l', P y := by
  intro l
  induction l with
  | nil =>
    intro l' hml
    simp only [mapME] at hml
    cases hml
    simp
  | cons x xs ih =>
    intro l' hml
    rw [mapME] at hml
    cases hfx : f x with
    | error m => rw [hfx] at hml; cases hml
    | ok y =>
      rw [hfx] at hml
      cases hmxs : mapME f xs with
      | error m => rw [hmxs] at hml; cases hml
      | ok ys =>
        rw [hmxs] at hml
        cases hml
        intro z hz
        rcases List.mem_cons.mp hz with hz | hz
        · exact hz ▸ hP x y hfx
        · exact ih ys hmxs z hz

lemma mapME_error_mem {α β : Type} (f : α → Except String β) :
    ∀ (l : List α) (m : String), mapME f l = .error m → ∃ x ∈ l, f x = .error m := by
  intro l
  induction l with
  | nil => intro m hml; rw [mapME] at hml; cases hml
  | cons x xs ih =>
    intro m hml
    rw [mapME] at hml
    cases hfx : f x with
    | error m' =>
      rw [hfx] at hml
      cases hml
      exact ⟨x, List.mem_cons_self x xs, hfx⟩
    | ok y =>
      rw [hfx] at hml
      cases hmxs : mapME f xs with
      | error m' =>
        rw [hmxs] at hml
        cases hml
        obtain ⟨a, ha, hfa⟩ := ih m hmxs
        exact ⟨a, List.mem_cons_of_mem x ha, hfa⟩
      | ok ys => rw [hmxs] at hml; cases hml

lemma mapME_ok_of_forall {α β : Type} (f : α → Except String β) :
    ∀ l : List α, (∀ x ∈ l, ∃ y, f x = .ok y) → ∃ l', mapME f l = .ok l' := by
  intro l
  induction l with
  | nil => intro _; exact ⟨[], rfl⟩
  | cons x xs ih =>
    intro hall
    obtain ⟨y, hy⟩ := hall x (List.mem_cons_self x xs)
    obtain ⟨ys, hys⟩ := ih (fun a ha => hall a (List.mem_cons_of_mem x ha))
    refine ⟨y :: ys, ?_⟩
    rw [mapME, hy, hys]

lemma mapME_ok_length {α β : Type} (f : α → Except String β) (l : List α)
    (l' : List β) (hml : mapME f l = .ok l') : l'.length = l.length := by
  have := mapME_ok_map f (fun _ => ()) (fun _ => ()) l l' hml (fun _ _ _ _ => rfl)
  have h1 : (l'.map fun _ => ()).length = (l.map fun _ => ()).length := by rw [this]
  simpa using h1

lemma range'_chain (a n s : ℕ) : (List.range' a n s).Chain' (fun x y => y = x + s) := by
  induction n generalizing a with
  | zero => simp
  | succ n ih =>
    rw [List.range'_succ, List.chain'_cons']
    refine ⟨?_, ih (a + s)⟩
    intro y hy
    cases n with
    | zero => simp at hy
    | succ m =>
      rw [List.range'_succ] at hy
      simp only [List.head?_cons, Option.mem_def, Option.some.injEq] at hy
      omega

lemma range'_getLast? (a n s : ℕ) (hn : 0 < n) :
    (List.range' a n s).getLast? = some (a + (n - 1) * s) := by
  induction n generalizing a with
  | zero => omega
  | succ n ih =>
    cases n with
    | zero => simp [List.range'_succ]
    | succ m =>
      rw [List.range'_succ, List.range'_succ, List.getLast?_cons_cons, ← List.range'_succ,
        ih (a + s) (Nat.succ_pos m)]
      congr 1
      have h1 : m + 1 + 1 - 1 = m + 1 := rfl
      have h2 : m + 1 - 1 = m := rfl
      rw [h1, h2]
      ring

lemma range'_le_getLast (a n s : ℕ) : ∀ x ∈ List.range' a n s, a ≤ x ∧ x ≤ a + (n - 1) * s := by
  intro x hx
  obtain ⟨i, hi, rfl⟩ := List.mem_range'.mp hx
  constructor
  · omega
  · have : s * i ≤ s * (n - 1) := Nat.mul_le_mul_left s (by omega)
    have h2 : s * (n - 1) = (n - 1) * s := Nat.mul_comm _ _
    omega

lemma pyRange_eq_of_lt (a b s : ℕ) (hs : 0 < s) (hab : a < b) :
    pyRange a b s = List.range' a ((b - a - 1) / s + 1) s := by
  unfold pyRange
  congr 1
  have h1 : b - a + s - 1 = (b - a - 1) + s := by omega
  rw [h1, Nat.add_div_right _ hs]

lemma pyRange_last_bounds (a b s : ℕ) (hs : 0 < s) (hab : a < b) :
    a + ((b - a - 1) / s + 1 - 1) * s < b ∧ b ≤ a + ((b - a - 1) / s + 1 - 1) * s + s := by
  have hdm := Nat.div_add_mod (b - a - 1) s
  have hmlt : (b - a - 1) % s < s := Nat.mod_lt _ hs
  have hsimp : (b - a - 1) / s + 1 - 1 = (b - a - 1) / s := Nat.add_sub_cancel _ _
  rw [hsimp]
  have hcomm : (b - a - 1) / s * s = s * ((b - a - 1) / s) := Nat.mul_comm _ _
  rw [hcomm]
  omega

lemma chain'_imp_mem {α : Type} {R S : α → α → Prop} :
    ∀ {l : List α}, l.Chain' R → (∀ x ∈ l, ∀ y ∈ l, R x y → S x y) → l.Chain' S := by
  intro l
  induction l with
  | nil => intro _ _; trivial
  | cons x xs ih =>
    intro hR hmem
    rw [List.chain'_cons'] at hR ⊢
    refine ⟨?_, ?_⟩
    · intro y hy
      have hyl : y ∈ xs := by
        cases xs with
        | nil => simp at hy
        | cons z zs =>
          simp only [List.head?_cons, Option.mem_def, Option.some.injEq] at hy
          exact hy ▸ List.mem_cons_self z zs
      exact hmem x (List.mem_cons_self x xs) y (List.mem_cons_of_mem x hyl) (hR.1 y hy)
    · exact ih hR.2 (fun a ha b hb hab =>
        hmem a (List.mem_cons_of_mem x ha) b (List.mem_cons_of_mem x hb) hab)

lemma chunkBody_ok {ts : List ℚ} {seb bpc b : ℕ} {c : ℕ × ℕ}
    (h : chunkBody ts seb bpc b = .ok c) :
    c = (b * _TERTIARIES_PER_BEAT,
        min ((b + bpc) * _TERTIARIES_PER_BEAT + 1) (seb * _TERTIARIES_PER_BEAT + 1)) ∧
      c.2 ≤ ts.length := by
  simp only [chunkBody] at h
  split_ifs at h with h1 h2 h3
  · cases h
    exact ⟨rfl, h1⟩

lemma chunks_cover :
    ∀ (l : List (ℕ × ℕ)) (A B : ℕ),
      l.head?.map Prod.fst = some A → l.getLast?.map Prod.snd = some B →
      l.Chain' (fun c d => d.1 + 1 = c.2) → (∀ c ∈ l, c.1 < c.2) →
      A < B ∧ l.flatMap (fun c => List.range' c.1 (c.2 - 1 - c.1))
        = List.range' A (B - 1 - A) := by
  intro l
  induction l with
  | nil => intro A B hA _ _ _; cases hA
  | cons c t ih =>
    intro A B hA hB hchain hlt
    have hAc : A = c.1 := by
      simp only [List.head?_cons, Option.map_some'] at hA
      exact (Option.some.injEq _ _ ▸ hA).symm
    have hc12 : c.1 < c.2 := hlt c (List.mem_cons_self c t)
    cases t with
    | nil =>
      have hBc : B = c.2 := by
        simp only [List.getLast?_singleton, Option.map_some'] at hB
        exact (Option.some.injEq _ _ ▸ hB).symm
      subst hAc hBc
      constructor
      · exact hc12
      · simp
    | cons d t' =>
      have hchain' : (d :: t').Chain' (fun c d => d.1 + 1 = c.2) :=
        (List.chain'_cons'.mp hchain).2
      have hdc : d.1 + 1 = c.2 := by
        have := (List.chain'_cons'.mp hchain).1
        exact this d (by simp)
      have hB' : (d :: t').getLast?.map Prod.snd = some B := by
        rw [← hB, List.getLast?_cons_cons]
      have hlt' : ∀ e ∈ d :: t', e.1 < e.2 :=
        fun e he => hlt e (List.mem_cons_of_mem c he)
      obtain ⟨hdB, hcov⟩ := ih d.1 B (by simp) hB' hchain' hlt'
      subst hAc
      constructor
      · omega
      · have hflat : ((c :: d :: t').flatMap fun e => List.range' e.1 (e.2 - 1 - e.1))
            = List.range' c.1 (c.2 - 1 - c.1)
              ++ ((d :: t').flatMap fun e => List.range' e.1 (e.2 - 1 - e.1)) := rfl
        rw [hflat, hcov]
        have happ := List.range'_append c.1 (c.2 - 1 - c.1) (B - 1 - d.1) 1
        have hstep : c.1 + 1 * (c.2 - 1 - c.1) = d.1 := by omega
        rw [hstep] at happ
        rw [happ]
        congr 1
        omega

lemma split_chunks_core (ts : List ℚ) (ssd seb bpc : ℕ) (hbpc : 0 < bpc)
    (hseg : ssd < seb) (chunks : List (ℕ × ℕ))
    (hok : mapME (chunkBody ts seb bpc) (pyRange ssd seb bpc) = .ok chunks) :
    chunks.head?.map Prod.fst = some (ssd * _TERTIARIES_PER_BEAT) ∧
    chunks.getLast?.map Prod.snd = some (seb * _TERTIARIES_PER_BEAT + 1) ∧
    chunks.Chain' (fun c d => d.1 + 1 = c.2) ∧
    (∀ c ∈ chunks, c.1 < c.2 ∧ c.2 ≤ ts.length) ∧
    chunks.flatMap (fun c => List.range' c.1 (c.2 - 1 - c.1))
      = List.range' (ssd * _TERTIARIES_PER_BEAT)
          (seb * _TERTIARIES_PER_BEAT - ssd * _TERTIARIES_PER_BEAT) := by
  set T := _TERTIARIES_PER_BEAT with hT
  have hT4 : T = 4 := rfl
  set g : ℕ → ℕ × ℕ := fun b => (b * T, min ((b + bpc) * T + 1) (seb * T + 1)) with hg
  set n := (seb - ssd - 1) / bpc + 1 with hn
  have hpy : pyRange ssd seb bpc = List.range' ssd n bpc := pyRange_eq_of_lt _ _ _ hbpc hseg
  rw [hpy] at hok
  have hmap : chunks = (List.range' ssd n bpc).map g := by
    have := mapME_ok_map (chunkBody ts seb bpc) g id (List.range' ssd n bpc) chunks hok
      (fun x _ y hy => by rw [(chunkBody_ok hy).1]; rfl)
    rw [List.map_id] at this
    exact this
  have hlen_mem : ∀ c ∈ chunks, c.2 ≤ ts.length :=
    mapME_ok_forall_mem (chunkBody ts seb bpc) (fun c => c.2 ≤ ts.length)
      (fun x y hy => (chunkBody_ok hy).2) (List.range' ssd n bpc) chunks hok
  have hlastval : ssd + (n - 1) * bpc < seb ∧ seb ≤ ssd + (n - 1) * bpc + bpc := by
    have h := pyRange_last_bounds ssd seb bpc hbpc hseg
    rw [hn]
    exact h
  have hmem_bound : ∀ x ∈ List.range' ssd n bpc, ssd ≤ x ∧ x < seb := by
    intro x hx
    have := range'_le_getLast ssd n bpc x hx
    omega
  refine ⟨?_, ?_, ?_, ?_, ?_⟩
  · rw [hmap, List.head?_map]
    have : (List.range' ssd n bpc).head? = some ssd := by
      rw [hn, List.range'_succ]
      rfl
    rw [this]
    rfl
  · rw [hmap, List.getLast?_map, range'_getLast? ssd n bpc (by rw [hn]; exact Nat.succ_pos _)]
    have hmin : min ((ssd + (n - 1) * bpc + bpc) * T + 1) (seb * T + 1) = seb * T + 1 := by
      have : seb * T ≤ (ssd + (n - 1) * bpc + bpc) * T :=
        Nat.mul_le_mul_right T hlastval.2
      omega
    simp only [Option.map_some', hg, hmin]
  · rw [hmap, List.chain'_map]
    refine chain'_imp_mem (range'_chain ssd n bpc) ?_
    intro x hx y hy hxy
    have hyb := hmem_bound y hy
    have hmin : min ((x + bpc) * T + 1) (seb * T + 1) = (x + bpc) * T + 1 := by
      have : (x + bpc) * T ≤ seb * T := Nat.mul_le_mul_right T (by omega)
      omega
    simp only [hg, hmin]
    subst hxy
    rfl
  · intro c hc
    refine ⟨?_, hlen_mem c hc⟩
    rw [hmap] at hc
    obtain ⟨x, hx, rfl⟩ := List.mem_map.mp hc
    have hxb := hmem_bound x hx
    simp only [hg]
    have h1 : x * T < (x + bpc) * T + 1 := by
      have : x * T ≤ (x + bpc) * T := Nat.mul_le_mul_right T (by omega)
      omega
    have h2 : x * T < seb * T + 1 := by
      have : x * T ≤ seb * T := Nat.mul_le_mul_right T (by omega)
      omega
    exact lt_min h1 h2
  · have hhead : chunks.head?.map Prod.fst = some (ssd * T) := by
      rw [hmap, List.head?_map]
      have : (List.range' ssd n bpc).head? = some ssd := by
        rw [hn, List.range'_succ]
        rfl
      rw [this]
      rfl
    have hlast2 : chunks.getLast?.map Prod.snd = some (seb * T + 1) := by
      rw [hmap, List.getLast?_map, range'_getLast? ssd n bpc (by rw [hn]; exact Nat.succ_pos _)]
      have hmin : min ((ssd + (n - 1) * bpc + bpc) * T + 1) (seb * T + 1) = seb * T + 1 := by
        have : seb * T ≤ (ssd + (n - 1) * bpc + bpc) * T :=
          Nat.mul_le_mul_right T hlastval.2
        omega
      simp only [Option.map_some', hg, hmin]
    have hchain : chunks.Chain' (fun c d => d.1 + 1 = c.2) := by
      rw [hmap, List.chain'_map]
      refine chain'_imp_mem (range'_chain ssd n bpc) ?_
      intro x hx y hy hxy
      have hyb := hmem_bound y hy
      have hmin : min ((x + bpc) * T + 1) (seb * T + 1) = (x + bpc) * T + 1 := by
        have : (x + bpc) * T ≤ seb * T := Nat.mul_le_mul_right T (by omega)
        omega
      simp only [hg, hmin]
      subst hxy
      rfl
    have hlt : ∀ c ∈ chunks, c.1 < c.2 := by
      intro c hc
      rw [hmap] at hc
      obtain ⟨x, hx, rfl⟩ := List.mem_map.mp hc
      have hxb := hmem_bound x hx
      simp only [hg]
      have h1 : x * T < (x + bpc) * T + 1 := by
        have : x * T ≤ (x + bpc) * T := Nat.mul_le_mul_right T (by omega)
        omega
      have h2 : x * T < seb * T + 1 := by
        have : x * T ≤ seb * T := Nat.mul_le_mul_right T (by omega)
        omega
      exact lt_min h1 h2
    obtain ⟨_, hcov⟩ := chunks_cover chunks (ssd * T) (seb * T + 1) hhead hlast2 hchain hlt
    have harith : seb * T + 1 - 1 - ssd * T = seb * T - ssd * T := by omega
    rw [hcov, harith]

lemma split_chunks_plan_props (ts : List ℚ) (mpc bpm ssd seb : ℕ) (avoid : Bool)
    (chunks : List (ℕ × ℕ)) (hmpc : 0 < mpc) (hbpm : 0 < bpm) (hseg : ssd < seb)
    (hok : _split_into_chunks ts mpc bpm ssd seb avoid false = .ok chunks) :
    chunks.head?.map Prod.fst = some (ssd * _TERTIARIES_PER_BEAT) ∧
    chunks.getLast?.map Prod.snd = some (seb * _TERTIARIES_PER_BEAT + 1) ∧
    chunks.Chain' (fun c d => d.1 + 1 = c.2) ∧
    (∀ c ∈ chunks, c.1 < c.2 ∧ c.2 ≤ ts.length) ∧
    chunks.flatMap (fun c => List.range' c.1 (c.2 - 1 - c.1))
      = List.range' (ssd * _TERTIARIES_PER_BEAT)
          (seb * _TERTIARIES_PER_BEAT - ssd * _TERTIARIES_PER_BEAT) := by
  cases avoid with
  | false =>
    simp only [_split_into_chunks, Bool.false_eq_true, if_false] at hok
    exact split_chunks_core ts ssd seb (bpm * mpc) (Nat.mul_pos hbpm hmpc) hseg chunks hok
  | true =>
    simp only [_split_into_chunks, Bool.false_eq_true, if_false, if_true] at hok
    split at hok
    · exact split_chunks_core ts ssd seb seb (by omega) hseg chunks hok
    · exact split_chunks_core ts ssd seb (bpm * mpc) (Nat.mul_pos hbpm hmpc) hseg chunks hok

/-- C2 amended: for every successful non-legacy chunk plan over a segment, the
chunks are listed in increasing order, each consecutive pair overlaps in exactly
the single boundary tertiary (the next chunk starts at the previous chunk's last
index, the trailing fence-post tertiary), the first chunk starts at the segment
start, the final chunk's end is clamped to the segment end, and after trimming
each chunk's trailing fence-post index the chunks are non-overlapping and cover
the segment's tertiary positions exactly, with no gaps and no duplicates. -/
theorem c2_chunk_plan (ts : List ℚ) (mpc bpm ssd seb : ℕ) (avoid : Bool)
    (chunks : List (ℕ × ℕ)) (hmpc : 0 < mpc) (hbpm : 0 < bpm) (hseg : ssd < seb)
    (hok : _split_into_chunks ts mpc bpm ssd seb avoid false = .ok chunks) :
    chunks.head?.map Prod.fst = some (ssd * _TERTIARIES_PER_BEAT) ∧
    chunks.getLast?.map Prod.snd = some (seb * _TERTIARIES_PER_BEAT + 1) ∧
    chunks.Chain' (fun c d => d.1 + 1 = c.2) ∧
    (∀ c ∈ chunks, c.1 < c.2 ∧ c.2 ≤ ts.length) ∧
    chunks.flatMap (fun c => List.range' c.1 (c.2 - 1 - c.1))
      = List.range' (ssd * _TERTIARIES_PER_BEAT)
          (seb * _TERTIARIES_PER_BEAT - ssd * _TERTIARIES_PER_BEAT) :=
  split_chunks_plan_props ts mpc bpm ssd seb avoid chunks hmpc hbpm hseg hok

lemma chunkBody_eval (ts : List ℚ) (seb bpc b e : ℕ) (hd0 hdl : ℚ)
    (he : min ((b + bpc) * _TERTIARIES_PER_BEAT + 1) (seb * _TERTIARIES_PER_BEAT + 1) = e)
    (hlen : e ≤ ts.length)
    (hh : (pySlice ts (b * _TERTIARIES_PER_BEAT) e).headD 0 = hd0)
    (hl : (pySlice ts (b * _TERTIARIES_PER_BEAT) e).getLastD 0 = hdl)
    (h1 : 0 < hdl - hd0) (h2 : hdl - hd0 ≤ _JUKEBOX_CHUNK_DURATION_EDGE) :
    chunkBody ts seb bpc b = .ok (b * _TERTIARIES_PER_BEAT, e) := by
  simp only [chunkBody, he]
  rw [if_pos hlen, hh, hl, if_pos h1, if_pos h2]

lemma c2_eval : _split_into_chunks tsC2 1 3 0 4 false false = .ok [(0, 13), (12, 17)] := by
  have hpy : pyRange 0 4 3 = [0, 3] := by decide
  have e1 : chunkBody tsC2 4 3 0 = .ok (0 * _TERTIARIES_PER_BEAT, 13) :=
    chunkBody_eval tsC2 4 3 0 13 0 12 (by decide) (by decide) rfl rfl (by norm_num)
      (by norm_num [_JUKEBOX_CHUNK_DURATION_EDGE])
  have e2 : chunkBody tsC2 4 3 3 = .ok (3 * _TERTIARIES_PER_BEAT, 17) :=
    chunkBody_eval tsC2 4 3 3 17 12 16 (by decide) (by decide) rfl rfl (by norm_num)
      (by norm_num [_JUKEBOX_CHUNK_DURATION_EDGE])
  have e1' : chunkBody tsC2 4 3 0 = .ok (0, 13) := by
    rw [e1]; rfl
  have e2' : chunkBody tsC2 4 3 3 = .ok (12, 17) := by
    rw [e2]; rfl
  simp only [_split_into_chunks, Bool.false_eq_true, if_false]
  have hb : (3 : ℕ) * 1 = 3 := rfl
  rw [hb, hpy]
  simp only [mapME, e1', e2']

/-- C2 counterexample: on a 17-entry grid with one-second tertiaries, segment beats
0 to 4 in 3/4 time with one measure per chunk, the non-legacy planner returns the
chunks `(0, 13)` and `(12, 17)`; their half-open index ranges both contain tertiary
index 12 (the fence-post tertiary), so the chunks are not non-overlapping and their
in-order union duplicates an index instead of partitioning the segment range: claim
C2 as stated fails. -/
theorem c2_counterexample :
    _split_into_chunks tsC2 1 3 0 4 false false = .ok [(0, 13), (12, 17)] ∧
    (12 ∈ List.range' 0 (13 - 0) ∧ 12 ∈ List.range' 12 (17 - 12)) ∧
    ¬ chunksExactCover [(0, 13), (12, 17)] 0 4 := by
  refine ⟨c2_eval, ⟨by decide, by decide⟩, ?_⟩
  simp only [chunksExactCover]
  decide

/-- C2 witness: the amended chunk-plan theorem applied to the concrete 17-entry
grid, where the planner produces two chunks overlapping in exactly index 12. -/
theorem c2_chunk_plan_witness :
    (0 : ℕ) < 1 ∧ (0 : ℕ) < 3 ∧ (0 : ℕ) < 4 ∧
    (([(0, 13), (12, 17)] : List (ℕ × ℕ)).head?.map Prod.fst
        = some (0 * _TERTIARIES_PER_BEAT) ∧
      ([(0, 13), (12, 17)] : List (ℕ × ℕ)).getLast?.map Prod.snd
        = some (4 * _TERTIARIES_PER_BEAT + 1) ∧
      ([(0, 13), (12, 17)] : List (ℕ × ℕ)).Chain' (fun c d => d.1 + 1 = c.2) ∧
      (∀ c ∈ ([(0, 13), (12, 17)] : List (ℕ × ℕ)), c.1 < c.2 ∧ c.2 ≤ tsC2.length) ∧
      ([(0, 13), (12, 17)] : List (ℕ × ℕ)).flatMap
          (fun c => List.range' c.1 (c.2 - 1 - c.1))
        = List.range' (0 * _TERTIARIES_PER_BEAT)
            (4 * _TERTIARIES_PER_BEAT - 0 * _TERTIARIES_PER_BEAT)) :=
  ⟨by decide, by decide, by decide,
    c2_chunk_plan tsC2 1 3 0 4 false [(0, 13), (12, 17)]
      (by decide) (by decide) (by decide) c2_eval⟩

/-- C1 witness: the tertiary-grid theorem applied to the identity beat-to-time map
over the two-beat grid `[0, 1]`. -/
theorem c1_tertiary_grid_witness :
    BeatToTimeFn (fun q : ℚ => q) ∧ 2 ≤ ([(0 : ℚ), 1] : List ℚ).length ∧
    (0 : ℚ) ≤ ([(0 : ℚ), 1] : List ℚ).getLastD 0 ∧
    ((tertiariesTimes (fun q : ℚ => q) [0, 1]).length
        = (([(0 : ℚ), 1] : List ℚ).length - 1) * 4 + 1 ∧
      (tertiariesTimes (fun q : ℚ => q) [0, 1]).Chain' (· ≤ ·) ∧
      (∀ t ∈ tertiariesTimes (fun q : ℚ => q) [0, 1],
        0 ≤ t ∧ t ≤ ([(0 : ℚ), 1] : List ℚ).getLastD 0) ∧
      (∀ k, k < (tertiariesTimes (fun q : ℚ => q) [0, 1]).length →
        (tertiariesTimes (fun q : ℚ => q) [0, 1]).getD k 0
          = min (max ((k : ℚ) / 4 - 1 / 8) 0) (([(0 : ℚ), 1] : List ℚ).getLastD 0))) := by
  have hf : BeatToTimeFn (fun q : ℚ => q) := fun _ _ h => h
  have hlen : 2 ≤ ([(0 : ℚ), 1] : List ℚ).length := by norm_num
  have hlast : (0 : ℚ) ≤ ([(0 : ℚ), 1] : List ℚ).getLastD 0 := by norm_num
  exact ⟨hf, hlen, hlast, c1_tertiary_grid (fun q : ℚ => q) [0, 1] hf hlen hlast⟩

lemma featBody_ne_tempo (extractor : ℚ → ℚ → ℚ × List (List ℚ)) (ts : List ℚ)
    (c : ℕ × ℕ) :
    featBody extractor ts c ≠ .error "Tempo too fast for beat-informed feature resampling" := by
  intro h
  simp only [featBody] at h
  split_ifs at h with h1
  · obtain ⟨i, _, hi⟩ := mapME_error_mem _ _ _ h
    simp only [poolBody] at hi
    split_ifs at hi with h2
    all_goals
      first
        | cases hi
        | (injection hi with hm; exact absurd hm (by decide))
  · injection h with hm
    exact absurd hm (by decide)

/-- C8: feature extraction fails with the tempo-too-fast error exactly when some
adjacent pair of full-grid tertiary timestamps spans zero native frames (timestamp
delta times the frame rate, truncated to an integer, equal to zero); the check is
performed before any extractor invocation, so under a failing check the result is
the same error for every extractor, and under a passing check the tempo-too-fast
error is never raised. -/
theorem c8_tempo_too_fast (fr : ℚ) (ts : List ℚ) (chunks : List (ℕ × ℕ))
    (ext : ℚ → ℚ → ℚ × List (List ℚ)) :
    (_extract_features ext fr ts chunks
        = .error "Tempo too fast for beat-informed feature resampling"
      ↔ tempoTooFast fr ts = true) ∧
    (tempoTooFast fr ts = true → ∀ ext' : ℚ → ℚ → ℚ × List (List ℚ),
      _extract_features ext fr ts chunks = _extract_features ext' fr ts chunks) := by
  constructor
  · constructor
    · intro h
      by_contra hno
      have hfalse : tempoTooFast fr ts = false := by
        cases htf : tempoTooFast fr ts with
        | false => rfl
        | true => exact absurd htf hno
      rw [_extract_features, hfalse, if_neg (by simp)] at h
      obtain ⟨c, _, hc⟩ := mapME_error_mem _ _ _ h
      exact featBody_ne_tempo ext ts c hc
    · intro h
      rw [_extract_features, h, if_pos rfl]
  · intro h ext'
    simp [_extract_features, h]

/-- C8 witness: on the grid `[0, 1/100]` at frame rate 4, the adjacent delta spans
`4/100` of a frame, truncating to zero frames, so extraction fails with the
tempo-too-fast error for the trivial extractor. -/
theorem c8_tempo_too_fast_witness :
    tempoTooFast 4 [0, 1 / 100] = true ∧
    _extract_features (fun _ _ => (4, [])) 4 [0, 1 / 100] []
      = .error "Tempo too fast for beat-informed feature resampling" := by
  have htf : tempoTooFast 4 [0, 1 / 100] = true := by
    rw [tempoTooFast]
    have hd : npDiff [0, 1 / 100] = [1 / 100 - 0] := rfl
    rw [hd]
    have : truncRat ((1 / 100 - 0) * 4) = 0 := by
      rw [truncRat, if_pos (by norm_num)]
      rw [show ((1 : ℚ) / 100 - 0) * 4 = 1 / 25 by norm_num]
      rw [Int.floor_eq_zero_iff.mpr]
      constructor <;> norm_num
    simp only [List.any_cons, List.any_nil, Bool.or_false]
    rw [this]
    rfl
  refine ⟨htf, ?_⟩
  exact ((c8_tempo_too_fast 4 [0, 1 / 100] [] (fun _ _ => (4, []))).1).mpr htf

lemma headD_eq_getD {α : Type} (l : List α) (d : α) : l.headD d = l.getD 0 d := by
  cases l <;> rfl

lemma pySlice_getD (ts : List ℚ) (a b i : ℕ) (h : i < (pySlice ts a b).length) :
    (pySlice ts a b).getD i 0 = ts.getD (a + i) 0 := by
  rw [pySlice, List.length_take, List.length_drop] at h
  rw [pySlice, List.getD_eq_getElem?_getD, List.getD_eq_getElem?_getD,
    List.getElem?_take, if_pos (by omega : i < b - a), List.getElem?_drop]

lemma pySlice_length_le (ts : List ℚ) (a b : ℕ) :
    a + (pySlice ts a b).length ≤ ts.length ∨ (pySlice ts a b).length ≤ b - a := by
  rw [pySlice, List.length_take, List.length_drop]
  omega

lemma chunk_frames_mono (fr : ℚ) (ct : List ℚ)
    (hd : ∀ i, i + 1 < ct.length → 1 ≤ (ct.getD (i + 1) 0 - ct.getD i 0) * fr) :
    ∀ i, i < ct.length → (i : ℚ) ≤ (ct.getD i 0 - ct.headD 0) * fr := by
  intro i
  induction i with
  | zero =>
    intro _
    rw [headD_eq_getD]
    simp
  | succ i ih =>
    intro hsi
    have h1 : (i : ℚ) ≤ (ct.getD i 0 - ct.headD 0) * fr := ih (by omega)
    have h2 : 1 ≤ (ct.getD (i + 1) 0 - ct.getD i 0) * fr := hd i hsi
    have hsplit : (ct.getD (i + 1) 0 - ct.headD 0) * fr
        = (ct.getD (i + 1) 0 - ct.getD i 0) * fr + (ct.getD i 0 - ct.headD 0) * fr := by
      ring
    rw [hsplit]
    push_cast
    linarith

/-- C9: under the precondition verified by the tempo-too-fast check (every adjacent
pair of full-grid tertiary timestamps spans at least one native frame, stated over
exact rational arithmetic), every chunk slice of the grid has strictly increasing
truncated frame indices relative to the chunk offset, so each pooled row averages
at least one extractor frame row and the pooling-loop assertion `e > s` cannot
fail: pooling succeeds for every feature array. -/
theorem c9_pool_assertion_safe (fr : ℚ) (ts : List ℚ) (a b : ℕ)
    (feats : List (List ℚ))
    (hd : ∀ i, i + 1 < ts.length → 1 ≤ (ts.getD (i + 1) 0 - ts.getD i 0) * fr) :
    (∀ i, i + 1 < (pySlice ts a b).length →
      truncRat (((pySlice ts a b).getD i 0 - (pySlice ts a b).headD 0) * fr)
        < truncRat (((pySlice ts a b).getD (i + 1) 0 - (pySlice ts a b).headD 0) * fr)) ∧
    ∃ rows, poolChunk fr feats (pySlice ts a b) ((pySlice ts a b).headD 0)
      = .ok rows := by
  set ct := pySlice ts a b with hct
  have hd_ct : ∀ i, i + 1 < ct.length → 1 ≤ (ct.getD (i + 1) 0 - ct.getD i 0) * fr := by
    intro i hi
    have hlen : ct.length ≤ ts.length - a := by
      rw [hct, pySlice, List.length_take, List.length_drop]
      omega
    rw [hct, pySlice_getD ts a b i (by rw [← hct]; omega), pySlice_getD ts a b (i + 1) (by rw [← hct]; omega)]
    have := hd (a + i) (by omega)
    have harg : a + (i + 1) = a + i + 1 := by omega
    rw [harg]
    exact this
  have hmono := chunk_frames_mono fr ct hd_ct
  have hkey : ∀ i, i + 1 < ct.length →
      truncRat ((ct.getD i 0 - ct.headD 0) * fr)
        < truncRat ((ct.getD (i + 1) 0 - ct.headD 0) * fr) := by
    intro i hi
    have hx : (i : ℚ) ≤ (ct.getD i 0 - ct.headD 0) * fr := hmono i (by omega)
    have hx0 : (0 : ℚ) ≤ (ct.getD i 0 - ct.headD 0) * fr := by
      have : (0 : ℚ) ≤ (i : ℚ) := by positivity
      linarith
    have hdelta : 1 ≤ (ct.getD (i + 1) 0 - ct.getD i 0) * fr := hd_ct i hi
    have hy : (ct.getD i 0 - ct.headD 0) * fr + 1 ≤ (ct.getD (i + 1) 0 - ct.headD 0) * fr := by
      have hsplit : (ct.getD (i + 1) 0 - ct.headD 0) * fr
          = (ct.getD (i + 1) 0 - ct.getD i 0) * fr + (ct.getD i 0 - ct.headD 0) * fr := by
        ring
      rw [hsplit]
      linarith
    have hy0 : (0 : ℚ) ≤ (ct.getD (i + 1) 0 - ct.headD 0) * fr := by linarith
    rw [truncRat, if_pos hx0, truncRat, if_pos hy0]
    have hfloor : ⌊(ct.getD i 0 - ct.headD 0) * fr⌋ + 1 ≤ ⌊(ct.getD (i + 1) 0 - ct.headD 0) * fr⌋ := by
      rw [← Int.floor_add_one]
      exact Int.floor_le_floor hy
    omega
  refine ⟨hkey, ?_⟩
  apply mapME_ok_of_forall
  intro i hi
  have hilt : i + 1 < ct.length := by
    have := List.mem_range.mp hi
    omega
  refine ⟨meanRows (pySlice feats
    (truncRat ((ct.getD i 0 - ct.headD 0) * fr)).toNat
    (truncRat ((ct.getD (i + 1) 0 - ct.headD 0) * fr)).toNat), ?_⟩
  simp only [poolBody]
  rw [if_pos (hkey i hilt)]

/-- C9 witness: the pooling-safety theorem applied to the two-entry grid `[0, 1]`
at frame rate 1, whose single adjacent pair spans exactly one native frame; pooling
the whole-grid chunk succeeds. -/
theorem c9_pool_assertion_safe_witness :
    (∀ i, i + 1 < ([(0 : ℚ), 1] : List ℚ).length →
      1 ≤ (([(0 : ℚ), 1] : List ℚ).getD (i + 1) 0 - ([(0 : ℚ), 1] : List ℚ).getD i 0) * 1) ∧
    ∃ rows, poolChunk 1 [] (pySlice [(0 : ℚ), 1] 0 2)
      ((pySlice [(0 : ℚ), 1] 0 2).headD 0) = .ok rows := by
  have hd : ∀ i, i + 1 < ([(0 : ℚ), 1] : List ℚ).length →
      1 ≤ (([(0 : ℚ), 1] : List ℚ).getD (i + 1) 0 - ([(0 : ℚ), 1] : List ℚ).getD i 0) * 1 := by
    intro i hi
    have hlen : ([(0 : ℚ), 1] : List ℚ).length = 2 := rfl
    rw [hlen] at hi
    have hi0 : i = 0 := by omega
    subst hi0
    rw [show (([(0 : ℚ), 1] : List ℚ).getD 1 0) = 1 from rfl,
      show (([(0 : ℚ), 1] : List ℚ).getD 0 0) = 0 from rfl]
    norm_num
  exact ⟨hd, (c9_pool_assertion_safe 1 [0, 1] 0 2 [] hd).2⟩

lemma length_flatMap {α β : Type} (f : α → List β) :
    ∀ l : List α, (l.flatMap f).length = (l.map (fun x => (f x).length)).sum := by
  intro l
  induction l with
  | nil => rfl
  | cons x xs ih => simp [List.flatMap_cons, ih]

lemma featBody_ok_length (extractor : ℚ → ℚ → ℚ × List (List ℚ)) (ts : List ℚ)
    (c : ℕ × ℕ) (rows : List (List ℚ)) (hc : c.2 ≤ ts.length)
    (h : featBody extractor ts c = .ok rows) : rows.length = c.2 - c.1 - 1 := by
  simp only [featBody] at h
  by_cases h1 : (pySlice ts c.1 c.2).getLastD 0 - (pySlice ts c.1 c.2).headD 0
      ≤ _JUKEBOX_CHUNK_DURATION_EDGE
  · rw [if_pos h1] at h
    have hlen := mapME_ok_length _ _ _ h
    rw [List.length_range] at hlen
    rw [hlen, pySlice, List.length_take, List.length_drop]
    omega
  · rw [if_neg h1] at h
    cases h

/-- C3: for a successful non-legacy run, the per-chunk logit sequences produced by
the transcription step concatenate, in chunk order, to exactly the tertiary
position count of the Segment Range, namely `(segment_end_beat -
segment_start_downbeat) * 4` positions (the code's `total_num_tertiary`): the
round-trip consistency between the Chunk Planner's fence-post ranges and the
Transcription Decoder's concatenated output. This holds for each enabled task
(melody and harmony alike, both instances of the same per-task computation). -/
theorem c3_concat_logit_length (ts : List ℚ) (mpc bpm ssd seb : ℕ) (avoid : Bool)
    (chunks : List (ℕ × ℕ)) (ext : ℚ → ℚ → ℚ × List (List ℚ)) (fr : ℚ)
    (features : List (List (List ℚ))) (model : List (List ℚ) → ℕ → List (List ℚ))
    (hmpc : 0 < mpc) (hbpm : 0 < bpm) (hseg : ssd < seb)
    (hchunks : _split_into_chunks ts mpc bpm ssd seb avoid false = .ok chunks)
    (hfeat : _extract_features ext fr ts chunks = .ok features)
    (hmodel : ∀ src n, (model src n).length = n) :
    ((_transcribe_chunks model features).flatten).length
      = (seb - ssd) * _TERTIARIES_PER_BEAT := by
  obtain ⟨hhead, hlastc, hchain, hmem, hcov⟩ :=
    split_chunks_plan_props ts mpc bpm ssd seb avoid chunks hmpc hbpm hseg hchunks
  have hfeat' : mapME (featBody ext ts) chunks = .ok features := by
    rw [_extract_features] at hfeat
    by_cases htempo : tempoTooFast fr ts = true
    · rw [if_pos htempo] at hfeat
      cases hfeat
    · rw [if_neg htempo] at hfeat
      exact hfeat
  have hlens : features.map List.length = chunks.map (fun c => c.2 - c.1 - 1) :=
    mapME_ok_map _ _ _ chunks features hfeat'
      (fun c hc rows hrows => featBody_ok_length ext ts c rows (hmem c hc).2 hrows)
  have htr : (_transcribe_chunks model features).map List.length
      = features.map List.length := by
    rw [_transcribe_chunks, List.map_map]
    refine List.map_congr_left ?_
    intro src _
    simp only [Function.comp]
    rw [List.length_take, hmodel]
    exact min_self _
  have hsum : (chunks.map (fun c => c.2 - 1 - c.1)).sum
      = seb * _TERTIARIES_PER_BEAT - ssd * _TERTIARIES_PER_BEAT := by
    have hlen1 := congrArg List.length hcov
    rw [length_flatMap, List.length_range'] at hlen1
    have hmapeq : chunks.map (fun c => (List.range' c.1 (c.2 - 1 - c.1)).length)
        = chunks.map (fun c => c.2 - 1 - c.1) := by
      refine List.map_congr_left ?_
      intro c _
      rw [List.length_range']
    rw [hmapeq] at hlen1
    exact hlen1
  have heq : (fun c : ℕ × ℕ => c.2 - c.1 - 1) = (fun c : ℕ × ℕ => c.2 - 1 - c.1) := by
    funext c
    omega
  rw [List.length_flatten, htr, hlens, heq, hsum, Nat.sub_mul]

lemma truncRat_intCast (n : ℤ) (hn : 0 ≤ n) (q : ℚ) (hq : q = (n : ℚ)) :
    truncRat q = n := by
  subst hq
  rw [truncRat, if_pos (by exact_mod_cast hn), Int.floor_intCast]

lemma truncRat_pos_ne_zero (q : ℚ) (h : 1 ≤ q) : (truncRat q == 0) = false := by
  rw [truncRat, if_pos (by linarith)]
  have h1 : (1 : ℤ) ≤ ⌊q⌋ := Int.le_floor.mpr (by exact_mod_cast h)
  rw [beq_eq_false_iff_ne]
  omega

lemma poolBody_eval (fr : ℚ) (feats : List (List ℚ)) (ct : List ℚ) (offset : ℚ)
    (i : ℕ) (x y : ℚ) (hx : ct.getD i 0 = x) (hy : ct.getD (i + 1) 0 = y)
    (s e : ℤ) (hs : truncRat ((x - offset) * fr) = s)
    (he : truncRat ((y - offset) * fr) = e) (hlt : s < e) :
    poolBody fr feats ct offset i = .ok (meanRows (pySlice feats s.toNat e.toNat)) := by
  simp only [poolBody, hx, hy, hs, he]
  rw [if_pos hlt]

lemma c3_eval_tempo : tempoTooFast 1 tsC3 = false := by
  rw [tempoTooFast]
  have hd : npDiff tsC3 = [1 - 0, 2 - 1, 3 - 2, 4 - 3] := rfl
  rw [hd]
  simp only [List.any_cons, List.any_nil, Bool.or_false]
  rw [truncRat_pos_ne_zero _ (by norm_num), truncRat_pos_ne_zero _ (by norm_num),
    truncRat_pos_ne_zero _ (by norm_num), truncRat_pos_ne_zero _ (by norm_num)]
  rfl

lemma c3_eval_featBody :
    featBody (fun _ _ => (1, [])) tsC3 (0, 5) = .ok [[], [], [], []] := by
  simp only [featBody]
  have hsl : pySlice tsC3 0 5 = tsC3 := rfl
  have hh : tsC3.headD 0 = 0 := rfl
  have hl : tsC3.getLastD 0 = 4 := rfl
  rw [hsl, hh, hl]
  rw [if_pos (by norm_num [_JUKEBOX_CHUNK_DURATION_EDGE] :
    (4 : ℚ) - 0 ≤ _JUKEBOX_CHUNK_DURATION_EDGE)]
  show poolChunk 1 [] tsC3 0 = Except.ok [[], [], [], []]
  rw [poolChunk]
  have hlen : tsC3.length - 1 = 4 := rfl
  have hr : List.range 4 = [0, 1, 2, 3] := rfl
  rw [hlen, hr]
  have hpb0 : poolBody 1 [] tsC3 0 0 = .ok [] := by
    rw [poolBody_eval 1 [] tsC3 0 0 0 1 rfl rfl 0 1
      (truncRat_intCast 0 (by norm_num) _ (by norm_num))
      (truncRat_intCast 1 (by norm_num) _ (by norm_num)) (by decide)]
    rfl
  have hpb1 : poolBody 1 [] tsC3 0 1 = .ok [] := by
    rw [poolBody_eval 1 [] tsC3 0 1 1 2 rfl rfl 1 2
      (truncRat_intCast 1 (by norm_num) _ (by norm_num))
      (truncRat_intCast 2 (by norm_num) _ (by norm_num)) (by decide)]
    rfl
  have hpb2 : poolBody 1 [] tsC3 0 2 = .ok [] := by
    rw [poolBody_eval 1 [] tsC3 0 2 2 3 rfl rfl 2 3
      (truncRat_intCast 2 (by norm_num) _ (by norm_num))
      (truncRat_intCast 3 (by norm_num) _ (by norm_num)) (by decide)]
    rfl
  have hpb3 : poolBody 1 [] tsC3 0 3 = .ok [] := by
    rw [poolBody_eval 1 [] tsC3 0 3 3 4 rfl rfl 3 4
      (truncRat_intCast 3 (by norm_num) _ (by norm_num))
      (truncRat_intCast 4 (by norm_num) _ (by norm_num)) (by decide)]
    rfl
  simp only [mapME, hpb0, hpb1, hpb2, hpb3]

lemma c3_eval_extract :
    _extract_features (fun _ _ => (1, [])) 1 tsC3 [(0, 5)] = .ok [[[], [], [], []]] := by
  rw [_extract_features, c3_eval_tempo, if_neg (by simp)]
  simp only [mapME, c3_eval_featBody]

lemma c3_eval_chunks : _split_into_chunks tsC3 1 3 0 1 false false = .ok [(0, 5)] := by
  have hpy : pyRange 0 1 3 = [0] := by decide
  have e1 : chunkBody tsC3 1 3 0 = .ok (0 * _TERTIARIES_PER_BEAT, 5) :=
    chunkBody_eval tsC3 1 3 0 5 0 4 (by decide) (by decide) rfl rfl (by norm_num)
      (by norm_num [_JUKEBOX_CHUNK_DURATION_EDGE])
  have e1' : chunkBody tsC3 1 3 0 = .ok (0, 5) := by
    rw [e1]; rfl
  simp only [_split_into_chunks, Bool.false_eq_true, if_false]
  have hb : (3 : ℕ) * 1 = 3 := rfl
  rw [hb, hpy]
  simp only [mapME, e1']

/-- C3 witness: the round-trip length theorem applied to a one-chunk run over the
five-entry grid with a trivial extractor and a classifier returning one logit row
per true position: 4 concatenated positions for segment beats 0 to 1. -/
theorem c3_concat_logit_length_witness :
    (0 : ℕ) < 1 ∧ (0 : ℕ) < 3 ∧ (0 : ℕ) < 1 ∧
    _split_into_chunks tsC3 1 3 0 1 false false = .ok [(0, 5)] ∧
    _extract_features (fun _ _ => (1, [])) 1 tsC3 [(0, 5)] = .ok [[[], [], [], []]] ∧
    (∀ src n, ((fun (_ : List (List ℚ)) (n : ℕ) => List.replicate n ([] : List ℚ))
      src n).length = n) ∧
    ((_transcribe_chunks (fun _ n => List.replicate n []) [[[], [], [], []]]).flatten).length
      = (1 - 0) * _TERTIARIES_PER_BEAT :=
  ⟨by decide, by decide, by decide, c3_eval_chunks, c3_eval_extract,
    fun src n => by simp,
    c3_concat_logit_length tsC3 1 3 0 1 false [(0, 5)] (fun _ _ => (1, [])) 1
      [[[], [], [], []]] (fun _ n => List.replicate n []) (by decide) (by decide)
      (by decide) c3_eval_chunks c3_eval_extract (fun src n => by simp)⟩

lemma c4_eval_pair :
    resolveSegmentPair [(0 : ℚ), 1] 0 4 (some 0) (some 1) true = some (0, 1) := by
  have hssd : _closest_idx 0 [(0 : ℚ), 1] = 0 := by
    rw [_closest_idx]
    have h1 : ([(0 : ℚ), 1].map (fun li => |li - 0|)) = [0, 1] := by norm_num
    rw [h1]
    decide
  have hseb : _closest_idx 1 [(0 : ℚ), 1] = 1 := by
    rw [_closest_idx]
    have h1 : ([(0 : ℚ), 1].map (fun li => |li - 1|)) = [1, 0] := by norm_num
    rw [h1]
    decide
  simp only [resolveSegmentPair, if_true, hssd, hseb]
  rfl

/-- C4 counterexample: with exact-downbeat hints `start = 0`, `end = 1` on the
two-beat grid `[0, 1]` in 4/4 (first downbeat index 0), the Beat Grid Constructor
resolves `segment_start_downbeat = 0`, `segment_end_beat = 1` and succeeds, even
though the segment spans one beat, less than the four-beat measure: the claim
that the segment-too-short error fires whenever the span is below
`beats_per_measure`, and the claimed invariant `difference ≥ beats_per_measure`,
are both false of the code (it checks only for equality of the two indices). -/
theorem c4_counterexample :
    resolveSegment [(0 : ℚ), 1] 0 4 (some 0) (some 1) true = .ok (0, 1) ∧
    1 - 0 < 4 := by
  refine ⟨?_, by norm_num⟩
  rw [resolveSegment, c4_eval_pair]
  rfl

/-- C4 amended: the Beat Grid Constructor fails with the segment-too-short error
exactly when the resolved `segment_end_beat` equals `segment_start_downbeat`, and
a run succeeds exactly when the two indices differ; the spec's stronger bound of
at least `beats_per_measure` between them is not enforced (it fails when
`segment_hints_are_downbeats` is set, as the counterexample shows). -/
theorem c4_segment_too_short (beats : List ℚ) (fdi bpm : ℕ) (ssh seh : Option ℚ)
    (exact_hints : Bool) (ssd seb : ℕ)
    (hpair : resolveSegmentPair beats fdi bpm ssh seh exact_hints = some (ssd, seb)) :
    (resolveSegment beats fdi bpm ssh seh exact_hints
        = .error "Specified segment is too short (<1 measure)." ↔ seb = ssd) ∧
    (resolveSegment beats fdi bpm ssh seh exact_hints = .ok (ssd, seb) ↔ seb ≠ ssd) := by
  simp only [resolveSegment, hpair]
  by_cases h : seb = ssd
  · rw [if_pos h]
    refine ⟨⟨fun _ => h, fun _ => rfl⟩, ?_, ?_⟩
    · intro hok
      cases hok
    · intro hne
      exact absurd h hne
  · rw [if_neg h]
    refine ⟨⟨?_, ?_⟩, fun _ => h, fun _ => rfl⟩
    · intro he
      cases he
    · intro hh
      exact absurd hh h

/-- C4 witness: the amended segment-too-short characterisation applied to the
concrete two-beat grid, where the resolved pair is `(0, 1)` and the run succeeds. -/
theorem c4_segment_too_short_witness :
    resolveSegmentPair [(0 : ℚ), 1] 0 4 (some 0) (some 1) true = some (0, 1) ∧
    ((resolveSegment [(0 : ℚ), 1] 0 4 (some 0) (some 1) true
        = .error "Specified segment is too short (<1 measure)." ↔ 1 = 0) ∧
      (resolveSegment [(0 : ℚ), 1] 0 4 (some 0) (some 1) true = .ok (0, 1) ↔ 1 ≠ 0)) :=
  ⟨c4_eval_pair,
    c4_segment_too_short [(0 : ℚ), 1] 0 4 (some 0) (some 1) true 0 1 c4_eval_pair⟩

/-- C5: with threshold 0, decoding never emits the no-event class at a position
unless the null class is the strict arg-max of that position's full logit vector;
in fact, since the null-class softmax output is strictly below 1, the non-null
probability `1 - softmax0` is strictly positive, the test `1 - softmax0 >= 0`
always passes, and no position decodes to the no-event class at all. -/
theorem c5_threshold_zero (softmax0 : List ℚ → ℚ) (logits : List (List ℚ))
    (hsm : ∀ z, softmax0 z < 1) :
    (∀ i, i < logits.length → (decode softmax0 logits (some 0)).getD i 0 = 0 →
      isStrictNullArgmax (logits.getD i [])) ∧
    (∀ p ∈ decode softmax0 logits (some 0), p ≠ 0) := by
  have hnz : ∀ p ∈ decode softmax0 logits (some 0), p ≠ 0 := by
    intro p hp
    rw [decode] at hp
    obtain ⟨z, _, rfl⟩ := List.mem_map.mp hp
    rw [if_pos (by linarith [hsm z])]
    omega
  refine ⟨?_, hnz⟩
  intro i hi h0
  exfalso
  have hlen : i < (decode softmax0 logits (some 0)).length := by
    rw [decode, List.length_map]
    exact hi
  have hgd : (decode softmax0 logits (some 0)).getD i 0
      = (decode softmax0 logits (some 0))[i] := by
    rw [List.getD_eq_getElem?_getD, List.getElem?_eq_getElem hlen]
    rfl
  rw [hgd] at h0
  exact hnz _ (List.getElem_mem hlen) h0

/-- C5 witness: the threshold-zero theorem applied to a single-position logit
sequence with a constant one-half null-softmax stand-in. -/
theorem c5_threshold_zero_witness :
    (∀ z : List ℚ, (fun _ : List ℚ => (1 : ℚ) / 2) z < 1) ∧
    (∀ p ∈ decode (fun _ => (1 : ℚ) / 2) [[0, 1]] (some 0), p ≠ 0) := by
  have hsm : ∀ z : List ℚ, (fun _ : List ℚ => (1 : ℚ) / 2) z < 1 := fun _ => by norm_num
  exact ⟨hsm, (c5_threshold_zero (fun _ => (1 : ℚ) / 2) [[0, 1]] hsm).2⟩

lemma harmonyGo_props (preds : List ℕ) :
    ∀ (o : ℕ) (last : Option (ℕ × List ℕ)),
      (harmonyGo preds o last).Chain' (fun a b => a.2 ≠ b.2) ∧
      (∀ e, (harmonyGo preds o last).head? = some e → some e.2 ≠ last) := by
  induction preds with
  | nil =>
    intro o last
    refine ⟨trivial, ?_⟩
    intro e he
    cases he
  | cons c rest ih =>
    intro o last
    rw [harmonyGo]
    by_cases hc : c ≠ 0
    · rw [if_pos hc]
      by_cases hne : some (chordOfClass c) ≠ last
      · rw [if_pos hne]
        refine ⟨?_, ?_⟩
        · rw [List.chain'_cons']
          refine ⟨?_, (ih (o + 1) (some (chordOfClass c))).1⟩
          intro e he
          have := (ih (o + 1) (some (chordOfClass c))).2 e he
          intro heq
          exact this (by rw [← heq])
        · intro e he
          rw [List.head?_cons] at he
          cases he
          exact hne
      · rw [if_neg hne]
        push_neg at hne
        refine ⟨(ih (o + 1) (some (chordOfClass c))).1, ?_⟩
        intro e he
        rw [← hne]
        exact (ih (o + 1) (some (chordOfClass c))).2 e he
    · rw [if_neg hc]
      exact ih (o + 1) last

/-- C6: the Harmony Event list decoded from any prediction sequence never contains
two adjacent events with identical chords: a non-null position's chord becomes a
new event only when it differs from the chord tracked from the previous non-null
position, so consecutive emitted events always carry distinct chords. -/
theorem c6_harmony_rle (preds : List ℕ) :
    (harmonyEvents preds).Chain' (fun a b => a.2 ≠ b.2) :=
  (harmonyGo_props preds 0 none).1

lemma melodyLoop_eq_zipWith :
    ∀ (l : List (ℕ × (ℕ × ℕ))) (total : ℕ),
      melodyLoop l total
        = List.zipWith (fun ev nxt => (ev.1, nxt - ev.1, ev.2)) l
            ((l.map Prod.fst).drop 1 ++ [total]) := by
  intro l
  induction l with
  | nil => intro total; rfl
  | cons x rest ih =>
    intro total
    obtain ⟨o, n⟩ := x
    cases rest with
    | nil => rfl
    | cons y rest' =>
      obtain ⟨o', n'⟩ := y
      have hl : melodyLoop ((o, n) :: (o', n') :: rest') total
          = (o, o' - o, n) :: melodyLoop ((o', n') :: rest') total := rfl
      rw [hl, ih total]
      rfl

lemma melodyLoop_map_fst :
    ∀ (l : List (ℕ × (ℕ × ℕ))) (total : ℕ),
      (melodyLoop l total).map (fun e => e.1) = l.map Prod.fst := by
  intro l
  induction l with
  | nil => intro total; rfl
  | cons x rest ih =>
    intro total
    obtain ⟨o, n⟩ := x
    cases rest with
    | nil => rfl
    | cons y rest' =>
      obtain ⟨o', n'⟩ := y
      have hl : melodyLoop ((o, n) :: (o', n') :: rest') total
          = (o, o' - o, n) :: melodyLoop ((o', n') :: rest') total := rfl
      rw [hl, List.map_cons, ih total]
      rfl

lemma melodyOnsets_fst (preds : List ℕ) :
    (melodyOnsets preds).map Prod.fst = onsetIndices preds := by
  rw [melodyOnsets, onsetIndices, List.map_filterMap]
  congr 1
  funext op
  by_cases h : op.2 ≠ 0
  · rw [if_pos h, if_pos h]
    rfl
  · rw [if_neg h, if_neg h]
    rfl

/-- C7: every melody decode turns each non-null position into exactly one event
with onset at that tertiary index (the event onsets are exactly the non-null
positions, in order), each event's duration runs to the next onset, and the last
event's duration runs to the end of the grid (`total - onset`), as captured by
the zip of the onset list with its successor onsets extended by the grid length;
in particular, decoding the argmax of logits that are null at position 0, class 5
at position 1 and null at position 2 with no threshold yields the single event
with onset 1, duration `3 - 1`, and the pitch of class 5 under the fixed
minimum-pitch offset, namely pitch class 1, octave 2. -/
theorem c7_melody_events :
    (∀ (preds : List ℕ) (total : ℕ),
      melodyEvents preds total
          = List.zipWith (fun ev nxt => (ev.1, nxt - ev.1, ev.2)) (melodyOnsets preds)
              (((melodyOnsets preds).map Prod.fst).drop 1 ++ [total]) ∧
      (melodyEvents preds total).map (fun e => e.1) = onsetIndices preds) ∧
    decode (fun _ => (0 : ℚ))
      [[1, 0, 0, 0, 0, 0], [0, 0, 0, 0, 0, 1], [1, 0, 0, 0, 0, 0]] none = [0, 5, 0] ∧
    melodyEvents [0, 5, 0] 3 = [(1, 3 - 1, noteOfClass 5)] ∧
    noteOfClass 5 = (1, 2) := by
  refine ⟨?_, by decide, by decide, by decide⟩
  intro preds total
  refine ⟨melodyLoop_eq_zipWith (melodyOnsets preds) total, ?_⟩
  rw [melodyEvents, melodyLoop_map_fst, melodyOnsets_fst]

lemma enumFrom_snd_mem {α : Type} :
    ∀ (l : List α) (i : ℕ) (p : ℕ × α), p ∈ List.enumFrom i l → p.2 ∈ l := by
  intro l
  induction l with
  | nil => intro i p hp; cases hp
  | cons x xs ih =>
    intro i p hp
    rw [List.enumFrom] at hp
    rcases List.mem_cons.mp hp with h | h
    · rw [h]
      exact List.mem_cons_self _ _
    · exact List.mem_cons_of_mem _ (ih (i + 1) p h)

lemma melodyOnsets_all_zero (preds : List ℕ) (hall : ∀ p ∈ preds, p = 0) :
    melodyOnsets preds = [] := by
  rw [melodyOnsets, List.filterMap_eq_nil_iff]
  intro op hop
  have h2 : op.2 = 0 := hall op.2 (enumFrom_snd_mem preds 0 op hop)
  rw [if_neg (not_not_intro h2)]

lemma harmonyGo_all_zero :
    ∀ (preds : List ℕ), (∀ p ∈ preds, p = 0) →
      ∀ (o : ℕ) (last : Option (ℕ × List ℕ)), harmonyGo preds o last = [] := by
  intro preds
  induction preds with
  | nil => intro _ o last; rfl
  | cons c rest ih =>
    intro hall o last
    have hc : c = 0 := hall c (List.mem_cons_self _ _)
    rw [harmonyGo, if_neg (not_not_intro hc)]
    exact ih (fun p hp => hall p (List.mem_cons_of_mem _ hp)) _ _

/-- C10: the entry point performs no range validation of `melody_threshold` or
`harmony_threshold` (its validation result does not depend on them); and for any
threshold strictly above 1, since the null-class softmax output is strictly
positive, `1 - softmax0` is strictly below 1, so every position decodes to the
no-event class, melody and harmony decode to empty event lists, and the pipeline
completes and returns an empty melody or harmony rather than raising an error. -/
theorem c10_threshold_above_one (softmax0 : List ℚ → ℚ) (logits : List (List ℚ))
    (t : ℚ) (total : ℕ) (hsm : ∀ z, 0 < softmax0 z) (htg : 1 < t) :
    (∀ ssh seh mpc bpmh mt mt' ht1 ht2 pad,
      sheetsageValidate ssh seh mpc bpmh mt ht1 pad
        = sheetsageValidate ssh seh mpc bpmh mt' ht2 pad) ∧
    decode softmax0 logits (some t) = List.replicate logits.length 0 ∧
    melodyEvents (decode softmax0 logits (some t)) total = [] ∧
    harmonyEvents (decode softmax0 logits (some t)) = [] := by
  have hdec : decode softmax0 logits (some t) = List.replicate logits.length 0 := by
    rw [decode]
    refine List.eq_replicate_iff.mpr ⟨List.length_map _ _, ?_⟩
    intro b hb
    obtain ⟨z, _, rfl⟩ := List.mem_map.mp hb
    rw [if_neg (by linarith [hsm z])]
  have hzero : ∀ p ∈ decode softmax0 logits (some t), p = 0 := by
    rw [hdec]
    intro p hp
    exact List.eq_of_mem_replicate hp
  refine ⟨fun ssh seh mpc bpmh mt mt' ht1 ht2 pad => rfl, hdec, ?_, ?_⟩
  · rw [melodyEvents, melodyOnsets_all_zero _ hzero]
    rfl
  · rw [harmonyEvents, harmonyGo_all_zero _ hzero 0 none]

/-- C10 witness: the theorem applied to the constant one-half null softmax, a
single-position logit sequence and threshold 2. -/
theorem c10_threshold_above_one_witness :
    (∀ z : List ℚ, 0 < (fun _ : List ℚ => (1 : ℚ) / 2) z) ∧ (1 : ℚ) < 2 ∧
    (decode (fun _ => (1 : ℚ) / 2) [[0, 1]] (some 2) = List.replicate 1 0 ∧
      melodyEvents (decode (fun _ => (1 : ℚ) / 2) [[0, 1]] (some 2)) 1 = [] ∧
      harmonyEvents (decode (fun _ => (1 : ℚ) / 2) [[0, 1]] (some 2)) = []) := by
  have hsm : ∀ z : List ℚ, 0 < (fun _ : List ℚ => (1 : ℚ) / 2) z := fun _ => by norm_num
  have htg : (1 : ℚ) < 2 := by norm_num
  obtain ⟨_, h2, h3, h4⟩ :=
    c10_threshold_above_one (fun _ => (1 : ℚ) / 2) [[0, 1]] 2 1 hsm htg
  exact ⟨hsm, htg, by simpa using h2, h3, h4⟩
